import Mathlib

/-!
Verification development for the memoization utility presented in
`src/posts/published/memoization/index.mdx` (the `memoize` higher-order
function, lines 36–62, together with the `add` example, lines 27–31, and the
memoized recursive `factorial`, lines 92–98).

JavaScript values are modelled by `JSValue`; the plain-object cache created by
`memoize` is modelled by an association list with JavaScript property-write
semantics; one application of the returned wrapper is `memoizedCall`, and a
sequence of applications is `runCalls`, which also counts how many times the
underlying function was invoked.
-/

namespace Memoization

/-- JavaScript values, as far as the memoization post manipulates them:
`undefined`, `null`, booleans, numbers, `NaN`, strings and function values.
The post only ever applies its memoized examples to integer arguments, so
numbers are carried as `Int`; fractional doubles are not modelled. `fnVal`
stands for an arbitrary function value (only its behaviour under
`JSON.stringify`, which yields `undefined` for functions, matters here). -/
inductive JSValue where
  | undef
  | null
  | bool (b : Bool)
  | num (n : Int)
  | nan
  | str (s : String)
  | fnVal
  deriving DecidableEq, Repr

/-- The decimal digit character for `d < 10` (used to print numbers the way
`JSON.stringify` prints a nonnegative integer). -/
def digitChar (d : Nat) : Char :=
  match d with
  | 0 => '0'
  | 1 => '1'
  | 2 => '2'
  | 3 => '3'
  | 4 => '4'
  | 5 => '5'
  | 6 => '6'
  | 7 => '7'
  | 8 => '8'
  | 9 => '9'
  | _ => '?'

/-- Fuel-driven decimal printer for naturals: digits of `n`, most significant
first. The fuel argument only forces structural termination; any fuel above
`n` yields the full digit string. -/
def natReprAux : Nat → Nat → List Char
  | 0, _ => []
  | f + 1, n =>
    if n < 10 then [digitChar n]
    else natReprAux f (n / 10) ++ [digitChar (n % 10)]

/-- Decimal digits of a natural number, most significant first. -/
def natReprChars (n : Nat) : List Char :=
  natReprAux (n + 1) n

/-- Decimal rendering of an integer, mirroring how `JSON.stringify` prints a
JavaScript integer: an optional leading minus sign followed by the digits. -/
def intReprChars (n : Int) : List Char :=
  if n < 0 then '-' :: natReprChars n.natAbs else natReprChars n.natAbs

/-- The string form of `intReprChars`. -/
def intRepr (n : Int) : String :=
  ⟨intReprChars n⟩

/-- JSON escaping of one character inside a string literal (quote and
backslash; the posts never serialize strings containing control characters,
which JSON additionally escapes). -/
def escapeChar (c : Char) : List Char :=
  if c = '"' ∨ c = '\\' then ['\\', c] else [c]

/-- The JSON string literal for `s`: a quoted, escaped rendering, as
`JSON.stringify` produces for a string argument. -/
def jsonQuote (s : String) : String :=
  ⟨'"' :: s.data.foldr (fun c acc => escapeChar c ++ acc) ['"']⟩

/-- The serialization `JSON.stringify` of a single value, as used at
index.mdx line 48.
`undefined` and function values have no JSON representation: `JSON.stringify`
returns `undefined` for them, modelled as `none`. `NaN` serializes to
`"null"`. (`args.map(JSON.stringify)` passes the element index and the array
as extra arguments, but `JSON.stringify` ignores a numeric replacer and a
non-numeric, non-string space, so the call is equivalent to the one-argument
form.) -/
def jsonStringify : JSValue → Option String
  | .undef => none
  | .null => some "null"
  | .bool true => some "true"
  | .bool false => some "false"
  | .num n => some (intRepr n)
  | .nan => some "null"
  | .str s => some (jsonQuote s)
  | .fnVal => none

/-- The join `Array.prototype.join('---')` of the results of
`args.map(JSON.stringify)`:
elements are concatenated with the separator `---` between consecutive
elements, and a hole of value `undefined` (here `none`) contributes the empty
string. -/
def joinKeys : List (Option String) → String
  | [] => ""
  | [s] => s.getD ""
  | s :: rest => s.getD "" ++ "---" ++ joinKeys rest

/-- The cache key derived at index.mdx line 48:
`args.map(JSON.stringify).join('---')`. -/
def jsKey (args : List JSValue) : String :=
  joinKeys (args.map jsonStringify)

/-- The plain-object cache (`const cache = {}`, index.mdx line 40): an
association list of own properties, in insertion order. The derived keys
(outputs of `JSON.stringify` joined by `---`) never coincide with a property
name inherited from `Object.prototype`, so the prototype chain is not
modelled. -/
abbrev Cache : Type := List (String × JSValue)

/-- The empty cache `{}`. -/
def emptyCache : Cache := []

/-- Property read without the `undefined` default: `some v` when `key` is an
own property with value `v`, `none` when the property is absent. -/
def cacheFind : Cache → String → Option JSValue
  | [], _ => none
  | (k', v) :: rest, k => if k' = k then some v else cacheFind rest k

/-- The JavaScript property read `cache[key]`: the stored value, or
`undefined` when the property is absent. -/
def cacheGet (c : Cache) (k : String) : JSValue :=
  (cacheFind c k).getD JSValue.undef

/-- The JavaScript property write `cache[key] = v`: overwrite in place when
the property exists, otherwise append it. -/
def cacheSet : Cache → String → JSValue → Cache
  | [], k, v => [(k, v)]
  | (k', v') :: rest, k, v =>
    if k' = k then (k, v) :: rest else (k', v') :: cacheSet rest k v

deriving instance DecidableEq for Except

/-- Outcome of one application of the wrapper returned by `memoize`: the value
returned (or the exception propagated), the cache afterwards, and whether the
underlying `fn` was invoked. -/
structure StepResult where
  result : Except JSValue JSValue
  cache : Cache
  invoked : Bool
  deriving DecidableEq, Repr

/-- One application of the wrapper returned by `memoize(fn)`
(index.mdx lines 44–61): derive `key` from the arguments, return `cache[key]`
when it is not `undefined`, otherwise invoke `fn`; on success store the result
under `key` and return it, and if `fn` throws, the exception propagates before
the store (`cache[key] = result` never runs). The underlying function may
throw, so it is modelled as returning `Except`, the error carrying the thrown
value. -/
def memoizedCall (fn : List JSValue → Except JSValue JSValue)
    (cache : Cache) (args : List JSValue) : StepResult :=
  let key := jsKey args
  if cacheGet cache key ≠ JSValue.undef then
    { result := .ok (cacheGet cache key), cache := cache, invoked := false }
  else
    match fn args with
    | .ok r => { result := .ok r, cache := cacheSet cache key r, invoked := true }
    | .error e => { result := .error e, cache := cache, invoked := true }

/-- A pure (never-throwing) underlying function, lifted to the `Except`-valued
shape `memoizedCall` expects. -/
def liftPure (f : List JSValue → JSValue) : List JSValue → Except JSValue JSValue :=
  fun a => .ok (f a)

/-- Outcome of a sequence of applications of one wrapper instance: the final
cache, the list of results in call order, and the total number of times the
underlying function was invoked. -/
structure RunResult where
  cache : Cache
  results : List (Except JSValue JSValue)
  invocations : Nat
  deriving DecidableEq, Repr

/-- Apply one wrapper instance to a list of argument tuples in order,
threading the closure-held cache through the calls. -/
def runCalls (fn : List JSValue → Except JSValue JSValue)
    (cache : Cache) : List (List JSValue) → RunResult
  | [] => ⟨cache, [], 0⟩
  | a :: rest =>
    let s := memoizedCall fn cache a
    let rr := runCalls fn s.cache rest
    ⟨rr.cache, s.result :: rr.results, (if s.invoked then 1 else 0) + rr.invocations⟩

/-- JavaScript `ToNumber` on the values the posts compute with: `null` and
booleans coerce to numbers, while `undefined`, `NaN` and function values give
`NaN` (`none`). String-to-number coercion is not exercised by any post and is
not modelled. -/
def toNumber : JSValue → Option Int
  | .num n => some n
  | .null => some 0
  | .bool true => some 1
  | .bool false => some 0
  | _ => none

/-- The string rendering `String(v)` used by the `+` operator when one operand
is a string. For a function value JavaScript renders its source text; the
posts never exercise that case, and it is rendered here as a fixed string. -/
def jsToStr : JSValue → String
  | .undef => "undefined"
  | .null => "null"
  | .bool true => "true"
  | .bool false => "false"
  | .num n => intRepr n
  | .nan => "NaN"
  | .str s => s
  | .fnVal => "function"

/-- The JavaScript binary `+`: string concatenation when either operand is a
string, otherwise numeric addition, with `NaN` when a numeric coercion
fails. -/
def jsAdd : JSValue → JSValue → JSValue
  | .str s, v => .str (s ++ jsToStr v)
  | v, .str s => .str (jsToStr v ++ s)
  | a, b =>
    match toNumber a, toNumber b with
    | some x, some y => .num (x + y)
    | _, _ => .nan

/-- The JavaScript binary `*`: numeric multiplication, `NaN` when a coercion
fails. -/
def jsMul (a b : JSValue) : JSValue :=
  match toNumber a, toNumber b with
  | some x, some y => .num (x * y)
  | _, _ => .nan

/-- The `add` example (index.mdx lines 28–30): `function add(x, y)
{ return x + y }`. A JavaScript function picks its declared parameters off the
argument list; missing arguments are `undefined`, extra ones are ignored. -/
def add (args : List JSValue) : JSValue :=
  jsAdd (args.getD 0 JSValue.undef) (args.getD 1 JSValue.undef)

/-- Outcome of one application of the memoized `factorial` wrapper: the value
returned, the cache afterwards, and how many times the underlying lambda
ran (over the whole recursive cascade of this call). -/
structure FactStep where
  result : JSValue
  cache : Cache
  invocations : Nat
  deriving DecidableEq, Repr

/-- The memoized recursive `factorial` (index.mdx lines 92–98):
`memoize(n => n === 0 ? 1 : n * factorial(n - 1))`, where the recursive call
goes back through the wrapper and therefore through the cache. The post only
applies it to nonnegative integers (on which the recursion terminates), so the
argument is a natural number here; the cache key is derived from the
JavaScript number it denotes. -/
def factorialCall : Nat → Cache → FactStep
  | 0, cache =>
    if cacheGet cache (jsKey [JSValue.num 0]) ≠ JSValue.undef then
      ⟨cacheGet cache (jsKey [JSValue.num 0]), cache, 0⟩
    else
      ⟨JSValue.num 1, cacheSet cache (jsKey [JSValue.num 0]) (JSValue.num 1), 1⟩
  | m + 1, cache =>
    let key := jsKey [JSValue.num (Int.ofNat (m + 1))]
    if cacheGet cache key ≠ JSValue.undef then
      ⟨cacheGet cache key, cache, 0⟩
    else
      let sub := factorialCall m cache
      let r := jsMul (JSValue.num (Int.ofNat (m + 1))) sub.result
      ⟨r, cacheSet sub.cache key r, 1 + sub.invocations⟩

/-- A pure test function distinguishing the argument tuple `[undefined]` from
every other tuple (used to exercise key collisions between tuples whose
arguments have no JSON representation). -/
def probe (args : List JSValue) : JSValue :=
  if args = [JSValue.undef] then .num 1 else .num 2

/-- A pure test function returning `undefined` on the tuple `[undefined]` and
a number otherwise (used to exercise the interaction of stored `undefined`
values with key collisions). -/
def probeU (args : List JSValue) : JSValue :=
  if args = [JSValue.undef] then .undef else .num 5

/-- The options record the specification describes for `wrap(fn, options)`:
a key-derivation override and a cache-backend factory. -/
structure MemoOptions where
  keyFn : List JSValue → String
  cacheFactory : Unit → Cache

/-- A call `memoize(fn, options)`. The source `memoize` (index.mdx line 36)
declares the single parameter `fn`, and JavaScript ignores arguments beyond a
function's declared parameters, so the body below is the body of `memoize`
verbatim: it reads neither `keyFn` nor `cacheFactory` from `opts`. -/
def memoizedCallOpts (opts : MemoOptions)
    (fn : List JSValue → Except JSValue JSValue)
    (cache : Cache) (args : List JSValue) : StepResult :=
  let key := jsKey args
  if cacheGet cache key ≠ JSValue.undef then
    { result := .ok (cacheGet cache key), cache := cache, invoked := false }
  else
    match fn args with
    | .ok r => { result := .ok r, cache := cacheSet cache key r, invoked := true }
    | .error e => { result := .error e, cache := cache, invoked := true }

/-- State of two independently created wrapper instances after an interleaved
sequence of calls: each instance's cache and its own results in order. -/
structure TwoResult where
  cache1 : Cache
  cache2 : Cache
  results1 : List (Except JSValue JSValue)
  results2 : List (Except JSValue JSValue)
  deriving DecidableEq

/-- Run an interleaved trace of calls against two wrapper instances, each
owning its separate cache as created by its own `memoize` application; a step
tagged `true` is a call of the first instance, `false` of the second. -/
def runTwo (fn1 fn2 : List JSValue → Except JSValue JSValue)
    (c1 c2 : Cache) : List (Bool × List JSValue) → TwoResult
  | [] => ⟨c1, c2, [], []⟩
  | (tag, a) :: rest =>
    if tag then
      let s := memoizedCall fn1 c1 a
      let r := runTwo fn1 fn2 s.cache c2 rest
      ⟨r.cache1, r.cache2, s.result :: r.results1, r.results2⟩
    else
      let s := memoizedCall fn2 c2 a
      let r := runTwo fn1 fn2 c1 s.cache rest
      ⟨r.cache1, r.cache2, r.results1, s.result :: r.results2⟩

/-- The calls of an interleaved trace that belong to the instance tagged
`tag`, in order. -/
def ownCalls (tag : Bool) (trace : List (Bool × List JSValue)) : List (List JSValue) :=
  (trace.filter (fun p => p.1 == tag)).map (fun p => p.2)

/-- The list `p` contains two consecutive dash characters. Since the
serialized form of
an integer contains at most one dash, this is what a serialized numeric
argument can never contain; the delimiter `---` contains it, so a piece
without `DoubleDash` in particular never contains the delimiter. -/
def DoubleDash (p : List Char) : Prop :=
  ∃ s t, p = s ++ '-' :: '-' :: t

/-- The shape shared by every serialized numeric argument, on which the
`---`-join is uniquely decodable: nonempty, ending in a decimal digit, and
containing no two consecutive dashes. -/
def ValidPiece (p : List Char) : Prop :=
  p ≠ [] ∧ (∀ c, p.getLast? = some c → c.isDigit) ∧ ¬ DoubleDash p

/-- The numeric value of a decimal digit character. -/
def charVal (c : Char) : Nat := c.toNat - 48

/-- Read a digit string back as a natural number (the inverse used to show
the decimal printer injective). -/
def parseNat (cs : List Char) : Nat :=
  cs.foldl (fun acc c => 10 * acc + charVal c) 0

/-- The character-level form of the `---`-join of the serialized argument
pieces. -/
def joinChars : List (List Char) → List Char
  | [] => []
  | [p] => p
  | p :: rest => p ++ '-' :: '-' :: '-' :: joinChars rest

/-- The cache of a wrapper instance for a pure underlying function `f` is
consistent when every key that passes the hit test stores the value `f`
produces on any tuple deriving that key. -/
def KeyConsistent (f : List JSValue → JSValue) (c : Cache) : Prop :=
  ∀ b, cacheGet c (jsKey b) ≠ JSValue.undef → cacheGet c (jsKey b) = f b

/-- A cache holding no `undefined` value under any key (the state the wrapper
preserves whenever the underlying function never returns `undefined`). -/
def NoUndefCache (c : Cache) : Prop :=
  ∀ q, cacheFind c q ≠ some JSValue.undef

lemma cacheFind_set : ∀ (c : Cache) (k q : String) (v : JSValue),
    cacheFind (cacheSet c k v) q = if k = q then some v else cacheFind c q := by
  intro c
  induction c with
  | nil => intro k q v; simp [cacheSet, cacheFind]
  | cons p rest ih =>
    intro k q v
    obtain ⟨k', v'⟩ := p
    by_cases h : k' = k
    · subst h
      by_cases hq : k' = q <;> simp [cacheSet, cacheFind, hq]
    · by_cases hq : k' = q
      · subst hq
        have hk : k ≠ k' := fun hh => h hh.symm
        simp [cacheSet, cacheFind, h, hk, ih]
      · simp [cacheSet, cacheFind, h, hq, ih]

lemma cacheGet_set (c : Cache) (k q : String) (v : JSValue) :
    cacheGet (cacheSet c k v) q = if k = q then v else cacheGet c q := by
  simp only [cacheGet, cacheFind_set]
  split <;> rfl

lemma cacheGet_eq_undef_of_find_none (c : Cache) (k : String)
    (h : cacheFind c k = none) : cacheGet c k = JSValue.undef := by
  simp [cacheGet, h]

lemma memoizedCall_hit (fn : List JSValue → Except JSValue JSValue)
    (c : Cache) (a : List JSValue) (h : cacheGet c (jsKey a) ≠ JSValue.undef) :
    memoizedCall fn c a = ⟨.ok (cacheGet c (jsKey a)), c, false⟩ := by
  simp [memoizedCall, h]

lemma memoizedCall_miss_ok (fn : List JSValue → Except JSValue JSValue)
    (c : Cache) (a : List JSValue) (r : JSValue)
    (h : cacheGet c (jsKey a) = JSValue.undef) (hr : fn a = .ok r) :
    memoizedCall fn c a = ⟨.ok r, cacheSet c (jsKey a) r, true⟩ := by
  simp [memoizedCall, h, hr]

lemma memoizedCall_miss_err (fn : List JSValue → Except JSValue JSValue)
    (c : Cache) (a : List JSValue) (e : JSValue)
    (h : cacheGet c (jsKey a) = JSValue.undef) (he : fn a = .error e) :
    memoizedCall fn c a = ⟨.error e, c, true⟩ := by
  simp [memoizedCall, h, he]

lemma runCalls_append (fn : List JSValue → Except JSValue JSValue)
    (c : Cache) (l1 l2 : List (List JSValue)) :
    runCalls fn c (l1 ++ l2) =
      ⟨(runCalls fn (runCalls fn c l1).cache l2).cache,
       (runCalls fn c l1).results ++ (runCalls fn (runCalls fn c l1).cache l2).results,
       (runCalls fn c l1).invocations + (runCalls fn (runCalls fn c l1).cache l2).invocations⟩ := by
  induction l1 generalizing c with
  | nil => simp [runCalls]
  | cons a rest ih => simp [runCalls, ih, Nat.add_assoc]

/-- C3: when `fn` throws while computing the result for `args` (a call that
reaches the computation, i.e. a cache miss), the wrapper propagates exactly
the thrown value, stores nothing (the cache is unchanged), and the next call
with the same arguments invokes `fn` again. -/
theorem memoized_error_propagation (fn : List JSValue → Except JSValue JSValue)
    (c : Cache) (a : List JSValue) (e : JSValue)
    (hmiss : cacheGet c (jsKey a) = JSValue.undef) (herr : fn a = .error e) :
    memoizedCall fn c a = ⟨.error e, c, true⟩
    ∧ (memoizedCall fn (memoizedCall fn c a).cache a).invoked = true := by
  have h1 := memoizedCall_miss_err fn c a e hmiss herr
  refine ⟨h1, ?_⟩
  rw [h1]
  simp [memoizedCall, hmiss, herr]

/-- Witness for `memoized_error_propagation`: a concrete throwing function on
a fresh cache. -/
theorem memoized_error_propagation_witness :
    memoizedCall (fun _ => Except.error (JSValue.str "boom")) emptyCache [JSValue.num 1]
      = ⟨.error (JSValue.str "boom"), emptyCache, true⟩ :=
  (memoized_error_propagation (fun _ => Except.error (JSValue.str "boom")) emptyCache
    [JSValue.num 1] (JSValue.str "boom") (by decide) rfl).1

/-- C7: the memoized recursive factorial applied to `5` on a fresh cache
returns `120`, populates the cache with exactly the keys derived from the
arguments `0` through `5` (in that order), and a subsequent call with `3`
returns the cached `6`, leaves the cache unchanged, and never invokes the
underlying lambda. -/
theorem factorial_fills_keys_zero_to_five :
    (factorialCall 5 emptyCache).result = JSValue.num 120
    ∧ (factorialCall 5 emptyCache).cache.map Prod.fst
        = [jsKey [JSValue.num 0], jsKey [JSValue.num 1], jsKey [JSValue.num 2],
           jsKey [JSValue.num 3], jsKey [JSValue.num 4], jsKey [JSValue.num 5]]
    ∧ factorialCall 3 (factorialCall 5 emptyCache).cache
        = ⟨JSValue.num 6, (factorialCall 5 emptyCache).cache, 0⟩
    ∧ cacheGet (factorialCall 5 emptyCache).cache (jsKey [JSValue.num 3]) = JSValue.num 6 := by
  decide

/-- C8, counterexample: `memoize` does not recognize an options argument. A
call `memoize(fn, { keyFn, cacheFactory })` with a `keyFn` mapping every
tuple to one key `"SAME"` still derives the default serialized keys: two
calls with distinct arguments both invoke `fn` (a recognized `keyFn` would
have served the second from the shared key), and the cache holds the
default-derived keys, not `"SAME"`. -/
theorem memoize_options_counterexample :
    (memoizedCallOpts ⟨fun _ => "SAME", fun _ => emptyCache⟩
        (fun _ => Except.ok (JSValue.num 7)) emptyCache [JSValue.num 1]).invoked = true
    ∧ (memoizedCallOpts ⟨fun _ => "SAME", fun _ => emptyCache⟩
        (fun _ => Except.ok (JSValue.num 7))
        (memoizedCallOpts ⟨fun _ => "SAME", fun _ => emptyCache⟩
          (fun _ => Except.ok (JSValue.num 7)) emptyCache [JSValue.num 1]).cache
        [JSValue.num 2]).invoked = true
    ∧ (memoizedCallOpts ⟨fun _ => "SAME", fun _ => emptyCache⟩
        (fun _ => Except.ok (JSValue.num 7))
        (memoizedCallOpts ⟨fun _ => "SAME", fun _ => emptyCache⟩
          (fun _ => Except.ok (JSValue.num 7)) emptyCache [JSValue.num 1]).cache
        [JSValue.num 2]).cache
        = [(jsKey [JSValue.num 1], JSValue.num 7), (jsKey [JSValue.num 2], JSValue.num 7)]
    ∧ jsKey [JSValue.num 1] ≠ "SAME" ∧ jsKey [JSValue.num 2] ≠ "SAME" := by
  decide

/-- C8, amended: `memoize` accepts only the function to wrap; an options
argument passed at the call site is ignored, so the wrapper's behaviour is
the same as without options and identical for any two options records — the
key policy stays the serialized `---`-join and the cache a fresh plain
object. -/
theorem memoize_options_ignored (opts opts' : MemoOptions)
    (fn : List JSValue → Except JSValue JSValue) (c : Cache) (a : List JSValue) :
    memoizedCallOpts opts fn c a = memoizedCall fn c a
    ∧ memoizedCallOpts opts fn c a = memoizedCallOpts opts' fn c a :=
  ⟨rfl, rfl⟩

/-- C1, counterexample: the wrapper can change an observable return value.
With the pure function `probe` (which maps the tuple `[undefined]` to `1` and
every other tuple to `2`), the call sequence `[undefined]` then `[fn-value]`
returns `1` for the second call — the cached result of different arguments —
while `probe` itself returns `2` on `[fn-value]`. -/
theorem memoized_transparency_counterexample :
    (runCalls (liftPure probe) emptyCache [[JSValue.undef], [JSValue.fnVal]]).results
      = [Except.ok (JSValue.num 1), Except.ok (JSValue.num 1)]
    ∧ liftPure probe [JSValue.fnVal] = Except.ok (JSValue.num 2)
    ∧ JSValue.num 1 ≠ JSValue.num 2 := by
  decide

/-- C2, counterexample: with the pure function constantly returning
`undefined`, two calls with the same argument tuple invoke the underlying
function twice, not once. -/
theorem memoized_single_invocation_counterexample :
    (runCalls (liftPure (fun _ => JSValue.undef)) emptyCache
        (List.replicate 2 [JSValue.num 1])).invocations = 2
    ∧ (2 : Nat) ≠ 1 := by
  decide

/-- C4, counterexample: distinct argument tuples can collide on a key. The
zero-argument call and the call with the single argument `undefined` (which
`JSON.stringify` cannot serialize) both derive the key `""`. -/
theorem key_never_collides_counterexample :
    jsKey [] = jsKey [JSValue.undef] ∧ ([] : List JSValue) ≠ [JSValue.undef] := by
  decide

/-- C5, counterexample: an operation can change the value stored under a
present key. With `probeU` (pure; `undefined` on `[undefined]`, `5`
otherwise), the first call stores `undefined` under the key `""`; the
colliding call `[fn-value]` misses (the stored `undefined` fails the hit
test) and overwrites the present key `""` with `5`. -/
theorem cache_two_state_counterexample :
    cacheFind (runCalls (liftPure probeU) emptyCache [[JSValue.undef]]).cache "" = some JSValue.undef
    ∧ cacheFind (runCalls (liftPure probeU) emptyCache
        [[JSValue.undef], [JSValue.fnVal]]).cache "" = some (JSValue.num 5)
    ∧ some JSValue.undef ≠ some (JSValue.num 5) := by
  decide

/-- C10, counterexample: not every call whose arguments all serialize to
`undefined` derives the empty key; with two such arguments the key is the
bare delimiter `---`. -/
theorem unserializable_empty_key_counterexample :
    jsonStringify JSValue.undef = none
    ∧ jsKey [JSValue.undef, JSValue.undef] = "---"
    ∧ ("---" : String) ≠ "" := by
  decide

lemma keyConsistent_empty (f : List JSValue → JSValue) : KeyConsistent f emptyCache := by
  intro b hb
  simp [cacheGet, cacheFind, emptyCache] at hb

lemma memoizedCall_pure_sound (f : List JSValue → JSValue)
    (h : ∀ a b, jsKey a = jsKey b → f a = f b) (c : Cache) (a : List JSValue)
    (hc : KeyConsistent f c) :
    (memoizedCall (liftPure f) c a).result = .ok (f a)
    ∧ KeyConsistent f (memoizedCall (liftPure f) c a).cache := by
  by_cases hit : cacheGet c (jsKey a) ≠ JSValue.undef
  · rw [memoizedCall_hit _ _ _ hit]
    exact ⟨by rw [hc a hit], hc⟩
  · have hmiss : cacheGet c (jsKey a) = JSValue.undef := by
      by_contra hcon; exact hit hcon
    rw [memoizedCall_miss_ok _ _ _ (f a) hmiss rfl]
    refine ⟨rfl, ?_⟩
    intro b hb
    rw [cacheGet_set] at hb ⊢
    by_cases hk : jsKey a = jsKey b
    · simpa [hk] using (h a b hk)
    · simp only [hk, if_false] at hb ⊢
      exact hc b hb

/-- C1, amended: for a pure `fn` whose results agree on argument tuples with
equal derived keys (in particular, whenever the tuples in use never collide),
the wrapper is transparent: every call in any call sequence returns exactly
`fn` applied to that call's arguments. -/
theorem memoized_result_transparency (f : List JSValue → JSValue)
    (h : ∀ a b, jsKey a = jsKey b → f a = f b) (calls : List (List JSValue)) :
    (runCalls (liftPure f) emptyCache calls).results
      = calls.map (fun a => Except.ok (f a)) := by
  suffices hgen : ∀ (c : Cache), KeyConsistent f c →
      (runCalls (liftPure f) c calls).results = calls.map (fun a => Except.ok (f a)) from
    hgen emptyCache (keyConsistent_empty f)
  induction calls with
  | nil => intro c _; simp [runCalls]
  | cons a rest ih =>
    intro c hc
    obtain ⟨hres, hinv⟩ := memoizedCall_pure_sound f h c a hc
    simp [runCalls, hres, ih _ hinv]

/-- Witness for `memoized_result_transparency`: a constant function, two
identical calls. -/
theorem memoized_result_transparency_witness :
    (runCalls (liftPure (fun _ => JSValue.num 7)) emptyCache
        [[JSValue.num 1], [JSValue.num 1]]).results
      = [Except.ok (JSValue.num 7), Except.ok (JSValue.num 7)] :=
  (memoized_result_transparency (fun _ => JSValue.num 7) (fun _ _ _ => rfl)
      [[JSValue.num 1], [JSValue.num 1]]).trans (by decide)

lemma runCalls_all_hits (f : List JSValue → JSValue) (a : List JSValue) (c : Cache)
    (hne : f a ≠ JSValue.undef) (hc : cacheGet c (jsKey a) = f a) (m : Nat) :
    runCalls (liftPure f) c (List.replicate m a)
      = ⟨c, List.replicate m (Except.ok (f a)), 0⟩ := by
  induction m with
  | zero => simp [runCalls]
  | succ m ih =>
    have hhit : cacheGet c (jsKey a) ≠ JSValue.undef := by rw [hc]; exact hne
    rw [List.replicate_succ]
    simp [runCalls, memoizedCall_hit _ _ _ hhit, hc, ih, List.replicate_succ]

/-- C2, amended: for a pure `fn` and a tuple `a` whose result is not
`undefined`, calling the freshly wrapped function `N ≥ 1` times with `a`
invokes `fn` exactly once, and every call returns `fn a` (the last `N - 1`
from the cache). -/
theorem memoized_single_invocation (f : List JSValue → JSValue) (a : List JSValue)
    (hne : f a ≠ JSValue.undef) (N : Nat) (hN : 1 ≤ N) :
    (runCalls (liftPure f) emptyCache (List.replicate N a)).results
      = List.replicate N (Except.ok (f a))
    ∧ (runCalls (liftPure f) emptyCache (List.replicate N a)).invocations = 1 := by
  obtain ⟨M, rfl⟩ : ∃ M, N = M + 1 := ⟨N - 1, by omega⟩
  have hmiss : cacheGet emptyCache (jsKey a) = JSValue.undef := rfl
  have hstep := memoizedCall_miss_ok (liftPure f) emptyCache a (f a) hmiss rfl
  have hget : cacheGet (cacheSet emptyCache (jsKey a) (f a)) (jsKey a) = f a := by
    rw [cacheGet_set]; simp
  rw [List.replicate_succ]
  simp [runCalls, hstep, runCalls_all_hits f a _ hne hget M, List.replicate_succ]

/-- Witness for `memoized_single_invocation`: a constant function called three
times. -/
theorem memoized_single_invocation_witness :
    (runCalls (liftPure (fun _ => JSValue.num 7)) emptyCache
        (List.replicate 3 [JSValue.num 1])).invocations = 1 :=
  (memoized_single_invocation (fun _ => JSValue.num 7) [JSValue.num 1]
      (by decide) 3 (by omega)).2

lemma runCalls_undef_loop (f : List JSValue → JSValue) (a : List JSValue)
    (hu : f a = JSValue.undef) (c : Cache)
    (hc : cacheGet c (jsKey a) = JSValue.undef) (n : Nat) :
    (runCalls (liftPure f) c (List.replicate n a)).results
      = List.replicate n (Except.ok JSValue.undef)
    ∧ (runCalls (liftPure f) c (List.replicate n a)).invocations = n := by
  induction n generalizing c with
  | zero => simp [runCalls]
  | succ n ih =>
    have hstep := memoizedCall_miss_ok (liftPure f) c a (f a) hc rfl
    rw [hu] at hstep
    have hget : cacheGet (cacheSet c (jsKey a) JSValue.undef) (jsKey a) = JSValue.undef := by
      rw [cacheGet_set]; simp
    obtain ⟨hres, hinv⟩ := ih _ hget
    rw [List.replicate_succ]
    simp [runCalls, hstep, hres, hinv, List.replicate_succ, Nat.add_comm]

/-- C9: when the underlying pure `fn` returns `undefined` on the tuple `a`,
the hit test `cache[key] !== undefined` treats the stored entry as absent, so
`n` calls with `a` invoke `fn` all `n` times — yet every call still returns
the (correct) `undefined`. -/
theorem undefined_results_always_recompute (f : List JSValue → JSValue)
    (a : List JSValue) (hu : f a = JSValue.undef) (n : Nat) :
    (runCalls (liftPure f) emptyCache (List.replicate n a)).results
      = List.replicate n (Except.ok JSValue.undef)
    ∧ (runCalls (liftPure f) emptyCache (List.replicate n a)).invocations = n :=
  runCalls_undef_loop f a hu emptyCache rfl n

/-- Witness for `undefined_results_always_recompute`: the constant
`undefined` function called twice. -/
theorem undefined_results_always_recompute_witness :
    (runCalls (liftPure (fun _ => JSValue.undef)) emptyCache
        (List.replicate 2 [JSValue.num 3])).invocations = 2 :=
  (undefined_results_always_recompute (fun _ => JSValue.undef) [JSValue.num 3] rfl 2).2

lemma noUndefCache_empty : NoUndefCache emptyCache := by
  intro q h
  simp [cacheFind, emptyCache] at h

lemma noUndef_step (fn : List JSValue → Except JSValue JSValue)
    (h : ∀ a r, fn a = Except.ok r → r ≠ JSValue.undef) (c : Cache) (a : List JSValue)
    (hc : NoUndefCache c) : NoUndefCache (memoizedCall fn c a).cache := by
  by_cases hit : cacheGet c (jsKey a) ≠ JSValue.undef
  · rw [memoizedCall_hit _ _ _ hit]; exact hc
  · have hmiss : cacheGet c (jsKey a) = JSValue.undef := by
      by_contra hcon; exact hit hcon
    cases hr : fn a with
    | ok r =>
      rw [memoizedCall_miss_ok _ _ _ r hmiss hr]
      intro q
      rw [cacheFind_set]
      split
      · intro hcontra
        exact h a r hr (Option.some.inj hcontra)
      · exact hc q
    | error e =>
      rw [memoizedCall_miss_err _ _ _ e hmiss hr]
      exact hc

lemma noUndef_run (fn : List JSValue → Except JSValue JSValue)
    (h : ∀ a r, fn a = Except.ok r → r ≠ JSValue.undef) (c : Cache)
    (hc : NoUndefCache c) (calls : List (List JSValue)) :
    NoUndefCache (runCalls fn c calls).cache := by
  induction calls generalizing c with
  | nil => exact hc
  | cons a rest ih => exact ih _ (noUndef_step fn h c a hc)

lemma cacheFind_persists (fn : List JSValue → Except JSValue JSValue)
    (h : ∀ a r, fn a = Except.ok r → r ≠ JSValue.undef) (c : Cache)
    (hc : NoUndefCache c) (k : String) (v : JSValue)
    (hv : cacheFind c k = some v) (extra : List (List JSValue)) :
    cacheFind (runCalls fn c extra).cache k = some v := by
  induction extra generalizing c with
  | nil => exact hv
  | cons a rest ih =>
    have hstep : cacheFind (memoizedCall fn c a).cache k = some v := by
      by_cases hit : cacheGet c (jsKey a) ≠ JSValue.undef
      · rw [memoizedCall_hit _ _ _ hit]; exact hv
      · have hmiss : cacheGet c (jsKey a) = JSValue.undef := by
          by_contra hcon; exact hit hcon
        cases hr : fn a with
        | ok r =>
          rw [memoizedCall_miss_ok _ _ _ r hmiss hr, cacheFind_set]
          split
          · next heq =>
            exfalso
            rw [heq] at hmiss
            rw [cacheGet, hv] at hmiss
            simp at hmiss
            exact hc k (hmiss ▸ hv)
          · exact hv
        | error e =>
          rw [memoizedCall_miss_err _ _ _ e hmiss hr]; exact hv
    have : NoUndefCache (memoizedCall fn c a).cache := noUndef_step fn h c a hc
    simpa [runCalls] using ih _ this hstep

/-- C5, amended: provided the underlying `fn` never returns `undefined`, each
key of a wrapper instance behaves as a two-state machine. Along any call
sequence from the fresh cache: a present key keeps exactly its stored value
under any further calls (no eviction, no overwrite), and an absent key
becomes present with result `r` upon a successful computation `fn a = r` for
a tuple `a` deriving it — hence the absent-to-present transition happens
exactly once, at the first successful computation for the key. -/
theorem cache_two_state_machine (fn : List JSValue → Except JSValue JSValue)
    (h : ∀ a r, fn a = Except.ok r → r ≠ JSValue.undef)
    (calls extra : List (List JSValue)) (k : String) (v : JSValue)
    (a : List JSValue) (r : JSValue) :
    (cacheFind (runCalls fn emptyCache calls).cache k = some v →
       cacheFind (runCalls fn emptyCache (calls ++ extra)).cache k = some v)
    ∧ (cacheFind (runCalls fn emptyCache calls).cache k = none → jsKey a = k →
       fn a = Except.ok r →
       cacheFind (runCalls fn emptyCache (calls ++ [a])).cache k = some r) := by
  have hno : NoUndefCache (runCalls fn emptyCache calls).cache :=
    noUndef_run fn h emptyCache noUndefCache_empty calls
  constructor
  · intro hv
    rw [runCalls_append]
    exact cacheFind_persists fn h _ hno k v hv extra
  · intro hnone hk hr
    rw [runCalls_append]
    have hmiss : cacheGet (runCalls fn emptyCache calls).cache (jsKey a) = JSValue.undef := by
      rw [hk]; exact cacheGet_eq_undef_of_find_none _ _ hnone
    simp only [runCalls, memoizedCall_miss_ok fn _ a r hmiss hr]
    rw [cacheFind_set]
    simp [hk]

/-- Witness for `cache_two_state_machine`: a constant numeric function; the
entry stored by the first call survives a later call with other arguments. -/
theorem cache_two_state_machine_witness :
    cacheFind (runCalls (fun _ => Except.ok (JSValue.num 1)) emptyCache
        ([[JSValue.num 1]] ++ [[JSValue.num 2]])).cache (jsKey [JSValue.num 1])
      = some (JSValue.num 1) :=
  (cache_two_state_machine (fun _ => Except.ok (JSValue.num 1))
      (fun a r hr => by injection hr with hh; subst hh; decide)
      [[JSValue.num 1]] [[JSValue.num 2]] (jsKey [JSValue.num 1]) (JSValue.num 1)
      [] JSValue.undef).1 (by decide)

lemma ownCalls_cons_same (tag : Bool) (a : List JSValue)
    (trace : List (Bool × List JSValue)) :
    ownCalls tag ((tag, a) :: trace) = a :: ownCalls tag trace := by
  simp [ownCalls, List.filter_cons]

lemma ownCalls_cons_other (tag tag' : Bool) (a : List JSValue)
    (trace : List (Bool × List JSValue)) (h : tag' ≠ tag) :
    ownCalls tag ((tag', a) :: trace) = ownCalls tag trace := by
  simp [ownCalls, List.filter_cons, h]

/-- C6: two independently wrapped instances are fully independent. Along any
interleaved trace, each instance's final cache and sequence of results are
exactly those of running that instance's own calls alone on its own cache —
calling one instance never reads from or modifies the other instance's
cache (this holds in particular for two instances of the same underlying
function, `fn1 = fn2`). -/
theorem instance_independence (fn1 fn2 : List JSValue → Except JSValue JSValue)
    (c1 c2 : Cache) (trace : List (Bool × List JSValue)) :
    runTwo fn1 fn2 c1 c2 trace =
      ⟨(runCalls fn1 c1 (ownCalls true trace)).cache,
       (runCalls fn2 c2 (ownCalls false trace)).cache,
       (runCalls fn1 c1 (ownCalls true trace)).results,
       (runCalls fn2 c2 (ownCalls false trace)).results⟩ := by
  induction trace generalizing c1 c2 with
  | nil => simp [runTwo, ownCalls, runCalls]
  | cons p rest ih =>
    obtain ⟨tag, a⟩ := p
    cases tag
    · rw [ownCalls_cons_same false a rest, ownCalls_cons_other true false a rest (by decide)]
      simp [runTwo, ih, runCalls]
    · rw [ownCalls_cons_same true a rest, ownCalls_cons_other false true a rest (by decide)]
      simp [runTwo, ih, runCalls]

/-- C10, amended: the zero-argument call and every one-argument call whose
argument has no JSON representation (`undefined`, a function value) derive
the same key, the empty string; consequently two such calls with different
arguments share one cache entry, and the second call returns the cached
result computed from the different arguments of the first (here `probe`
gives `1` on `[undefined]` and `2` on `[fn-value]`, yet the second call
returns the cached `1` without invoking `probe`). A call with several such
arguments instead derives a key of bare delimiters. -/
theorem unserializable_args_share_key (v : JSValue) (hv : jsonStringify v = none) :
    jsKey [v] = "" ∧ jsKey [] = ""
    ∧ (runCalls (liftPure probe) emptyCache [[JSValue.undef], [JSValue.fnVal]]).results
        = [Except.ok (JSValue.num 1), Except.ok (JSValue.num 1)]
    ∧ (runCalls (liftPure probe) emptyCache [[JSValue.undef], [JSValue.fnVal]]).invocations = 1
    ∧ probe [JSValue.fnVal] = JSValue.num 2 := by
  refine ⟨?_, by decide, by decide, by decide, by decide⟩
  simp [jsKey, joinKeys, hv]

/-- Witness for `unserializable_args_share_key`: a function value serializes
to `undefined` and derives the empty key. -/
theorem unserializable_args_share_key_witness :
    jsKey [JSValue.fnVal] = "" :=
  (unserializable_args_share_key JSValue.fnVal rfl).1

lemma digitChar_isDigit (d : Nat) (h : d < 10) : (digitChar d).isDigit := by
  interval_cases d <;> decide

lemma charVal_digitChar (d : Nat) (h : d < 10) : charVal (digitChar d) = d := by
  interval_cases d <;> decide

lemma parseNat_append_singleton (cs : List Char) (c : Char) :
    parseNat (cs ++ [c]) = 10 * parseNat cs + charVal c := by
  simp [parseNat, List.foldl_append]

lemma parseNat_natReprAux : ∀ (f n : Nat), n < f → parseNat (natReprAux f n) = n := by
  intro f
  induction f with
  | zero => intro n h; omega
  | succ f ih =>
    intro n h
    rw [natReprAux]
    split
    · next h10 => simp [parseNat, charVal_digitChar n h10]
    · next h10 =>
      rw [parseNat_append_singleton, ih (n / 10) (by omega),
        charVal_digitChar (n % 10) (Nat.mod_lt _ (by omega))]
      omega

lemma natReprChars_inj (a b : Nat) (h : natReprChars a = natReprChars b) : a = b := by
  have ha := parseNat_natReprAux (a + 1) a (by omega)
  have hb := parseNat_natReprAux (b + 1) b (by omega)
  rw [natReprChars, natReprChars] at h
  rw [← ha, ← hb, h]

lemma natReprAux_ne_nil (f n : Nat) (h : n < f) : natReprAux f n ≠ [] := by
  cases f with
  | zero => omega
  | succ f =>
    rw [natReprAux]
    split <;> simp

lemma natReprChars_ne_nil (n : Nat) : natReprChars n ≠ [] :=
  natReprAux_ne_nil (n + 1) n (by omega)

lemma mem_natReprAux_isDigit : ∀ (f n : Nat), n < f → ∀ c ∈ natReprAux f n, c.isDigit := by
  intro f
  induction f with
  | zero => intro n h; omega
  | succ f ih =>
    intro n h c hc
    rw [natReprAux] at hc
    split at hc
    · next h10 =>
      simp at hc
      subst hc
      exact digitChar_isDigit n h10
    · next h10 =>
      rw [List.mem_append] at hc
      rcases hc with hc | hc
      · exact ih (n / 10) (by omega) c hc
      · simp at hc
        subst hc
        exact digitChar_isDigit (n % 10) (Nat.mod_lt _ (by omega))

lemma mem_natReprChars_isDigit (n : Nat) (c : Char) (hc : c ∈ natReprChars n) : c.isDigit :=
  mem_natReprAux_isDigit (n + 1) n (by omega) c hc

lemma mem_of_getLast?_eq : ∀ (l : List Char) (c : Char), l.getLast? = some c → c ∈ l := by
  intro l
  induction l with
  | nil => intro c h; simp [List.getLast?] at h
  | cons a t ih =>
    intro c h
    cases t with
    | nil =>
      simp [List.getLast?] at h
      simp [h]
    | cons b t' =>
      rw [List.getLast?_cons_cons] at h
      exact List.mem_cons_of_mem a (ih c h)

lemma noDoubleDash_of_all_digits (l : List Char) (h : ∀ c ∈ l, c.isDigit) :
    ¬ DoubleDash l := by
  rintro ⟨s, t, rfl⟩
  exact absurd (h '-' (by simp)) (by decide)

lemma validPiece_intReprChars (n : Int) : ValidPiece (intReprChars n) := by
  unfold intReprChars
  split
  · refine ⟨by simp, ?_, ?_⟩
    · intro c hc
      obtain ⟨d, l', hl⟩ := List.exists_cons_of_ne_nil (natReprChars_ne_nil n.natAbs)
      rw [hl, List.getLast?_cons_cons] at hc
      have hmem : c ∈ natReprChars n.natAbs := by
        rw [hl]
        exact mem_of_getLast?_eq _ c hc
      exact mem_natReprChars_isDigit _ c hmem
    · rintro ⟨s, t, hst⟩
      cases s with
      | nil =>
        simp at hst
        have : ('-' : Char) ∈ natReprChars n.natAbs := by rw [hst]; simp
        exact absurd (mem_natReprChars_isDigit _ '-' this) (by decide)
      | cons a s' =>
        have hst' := (List.cons.inj hst).2
        have : ('-' : Char) ∈ natReprChars n.natAbs := by rw [hst']; simp
        exact absurd (mem_natReprChars_isDigit _ '-' this) (by decide)
  · refine ⟨natReprChars_ne_nil n.natAbs, ?_, ?_⟩
    · intro c hc
      exact mem_natReprChars_isDigit _ c (mem_of_getLast?_eq _ c hc)
    · exact noDoubleDash_of_all_digits _ (fun c hc => mem_natReprChars_isDigit _ c hc)

lemma intReprChars_inj (a b : Int) (h : intReprChars a = intReprChars b) : a = b := by
  unfold intReprChars at h
  by_cases ha : a < 0 <;> by_cases hb : b < 0 <;> simp [ha, hb] at h
  · have := natReprChars_inj _ _ h
    omega
  · exfalso
    have : ('-' : Char) ∈ natReprChars b.natAbs := by rw [← h]; simp
    exact absurd (mem_natReprChars_isDigit _ '-' this) (by decide)
  · exfalso
    have : ('-' : Char) ∈ natReprChars a.natAbs := by rw [h]; simp
    exact absurd (mem_natReprChars_isDigit _ '-' this) (by decide)
  · have := natReprChars_inj _ _ h
    omega

lemma sep_overlap_nil (p t x y q : List Char) (hq : ValidPiece q) (hqe : q = p ++ t)
    (hx : '-' :: '-' :: '-' :: x = t ++ '-' :: '-' :: '-' :: y) : t = [] := by
  cases t with
  | nil => rfl
  | cons c t' =>
    exfalso
    rw [List.cons_append] at hx
    obtain ⟨hc, hx'⟩ := List.cons.inj hx
    cases t' with
    | nil =>
      have hlast : q.getLast? = some c := by
        rw [hqe]
        exact List.getLast?_concat p
      have := hq.2.1 c hlast
      rw [← hc] at this
      exact absurd this (by decide)
    | cons c' t'' =>
      rw [List.cons_append] at hx'
      obtain ⟨hc', _⟩ := List.cons.inj hx'
      apply hq.2.2
      refine ⟨p, t'', ?_⟩
      rw [hqe, ← hc, ← hc']

lemma sep_inj (p q x y : List Char) (hp : ValidPiece p) (hq : ValidPiece q)
    (h : p ++ '-' :: '-' :: '-' :: x = q ++ '-' :: '-' :: '-' :: y) :
    p = q ∧ x = y := by
  rcases List.append_eq_append_iff.mp h with ⟨t, hq', hx⟩ | ⟨t, hp', hy⟩
  · have ht := sep_overlap_nil p t x y q hq hq' hx
    subst ht
    rw [List.append_nil] at hq'
    subst hq'
    simp at hx
    exact ⟨rfl, hx⟩
  · have ht := sep_overlap_nil q t y x p hp hp' hy
    subst ht
    rw [List.append_nil] at hp'
    subst hp'
    simp at hy
    exact ⟨rfl, hy.symm⟩

lemma joinChars_inj : ∀ (ps qs : List (List Char)),
    (∀ p ∈ ps, ValidPiece p) → (∀ q ∈ qs, ValidPiece q) →
    joinChars ps = joinChars qs → ps = qs := by
  intro ps
  induction ps with
  | nil =>
    intro qs _ hq h
    cases qs with
    | nil => rfl
    | cons q qs' =>
      exfalso
      cases qs' with
      | nil => exact (hq q (by simp)).1 h.symm
      | cons r qs'' =>
        have hjc : joinChars (q :: r :: qs'')
            = q ++ '-' :: '-' :: '-' :: joinChars (r :: qs'') := rfl
        have hnil : joinChars ([] : List (List Char)) = [] := rfl
        rw [hjc, hnil] at h
        exact absurd h.symm (by simp)
  | cons p ps' ih =>
    intro qs hp hq h
    cases qs with
    | nil =>
      exfalso
      cases ps' with
      | nil => exact (hp p (by simp)).1 h
      | cons r ps'' =>
        have hjc : joinChars (p :: r :: ps'')
            = p ++ '-' :: '-' :: '-' :: joinChars (r :: ps'') := rfl
        have hnil : joinChars ([] : List (List Char)) = [] := rfl
        rw [hjc, hnil] at h
        exact absurd h (by simp)
    | cons q qs' =>
      cases ps' with
      | nil =>
        cases qs' with
        | nil =>
          have hpq : p = q := h
          rw [hpq]
        | cons r qs'' =>
          exfalso
          apply (hp p (by simp)).2.2
          exact ⟨q, '-' :: joinChars (r :: qs''), h⟩
      | cons p2 ps'' =>
        cases qs' with
        | nil =>
          exfalso
          apply (hq q (by simp)).2.2
          exact ⟨p, '-' :: joinChars (p2 :: ps''), h.symm⟩
        | cons q2 qs'' =>
          have h' : p ++ '-' :: '-' :: '-' :: joinChars (p2 :: ps'')
              = q ++ '-' :: '-' :: '-' :: joinChars (q2 :: qs'') := h
          obtain ⟨hpq, hrest⟩ :=
            sep_inj p q _ _ (hp p (by simp)) (hq q (by simp)) h'
          have htail := ih (q2 :: qs'')
            (fun z hz => hp z (by simp [hz])) (fun z hz => hq z (by simp [hz])) hrest
          rw [hpq, htail]

lemma joinKeys_data_all_some : ∀ (ss : List String),
    (joinKeys (ss.map Option.some)).data = joinChars (ss.map String.data) := by
  intro ss
  induction ss with
  | nil => rfl
  | cons s rest ih =>
    cases rest with
    | nil => rfl
    | cons t rest' =>
      show (s ++ "---" ++ joinKeys ((t :: rest').map Option.some)).data
          = s.data ++ '-' :: '-' :: '-' :: joinChars ((t :: rest').map String.data)
      rw [String.data_append, String.data_append, ih]
      have hdelim : "---".data = ['-', '-', '-'] := rfl
      rw [List.append_assoc, hdelim]
      rfl

lemma jsKey_nums (ns : List Int) :
    jsKey (ns.map JSValue.num) = joinKeys ((ns.map intRepr).map Option.some) := by
  unfold jsKey
  congr 1
  simp [List.map_map]
  intro a _
  rfl

lemma jsKey_num_inj (ns ms : List Int)
    (h : jsKey (ns.map JSValue.num) = jsKey (ms.map JSValue.num)) : ns = ms := by
  rw [jsKey_nums, jsKey_nums] at h
  have hdata := congrArg String.data h
  rw [joinKeys_data_all_some, joinKeys_data_all_some, List.map_map, List.map_map] at hdata
  have hpieces : ns.map intReprChars = ms.map intReprChars := by
    refine joinChars_inj _ _ ?_ ?_ hdata
    · rintro p hp
      obtain ⟨n, _, rfl⟩ := List.mem_map.mp hp
      exact validPiece_intReprChars n
    · rintro q hqm
      obtain ⟨n, _, rfl⟩ := List.mem_map.mp hqm
      exact validPiece_intReprChars n
  exact List.map_injective_iff.mpr (fun a b hab => intReprChars_inj a b hab) hpieces

/-- C4, amended: the default key derivation serializes the arguments with
`JSON.stringify` and joins them with the delimiter `---`. The serialized form
of a numeric argument never contains two consecutive dashes (so never the
delimiter), and distinct tuples of numeric arguments never collide on a key;
in particular `add(12, 3)` and `add(1, 23)` produce different cache entries
under different keys and different results, `15` and `24`. (For argument
tuples beyond numbers the guarantee fails; see the counterexample.) -/
theorem delimiter_prevents_numeric_collisions (n : Int) (ns ms : List Int)
    (hkey : jsKey (ns.map JSValue.num) = jsKey (ms.map JSValue.num)) :
    ¬ DoubleDash (intRepr n).data
    ∧ ns = ms
    ∧ (runCalls (liftPure add) emptyCache
        [[JSValue.num 12, JSValue.num 3], [JSValue.num 1, JSValue.num 23]]).results
        = [Except.ok (JSValue.num 15), Except.ok (JSValue.num 24)]
    ∧ (runCalls (liftPure add) emptyCache
        [[JSValue.num 12, JSValue.num 3], [JSValue.num 1, JSValue.num 23]]).cache
        = [(jsKey [JSValue.num 12, JSValue.num 3], JSValue.num 15),
           (jsKey [JSValue.num 1, JSValue.num 23], JSValue.num 24)]
    ∧ jsKey [JSValue.num 12, JSValue.num 3] ≠ jsKey [JSValue.num 1, JSValue.num 23] :=
  ⟨(validPiece_intReprChars n).2.2, jsKey_num_inj ns ms hkey,
   by decide, by decide, by decide⟩

/-- Witness for `delimiter_prevents_numeric_collisions`: a concrete negative
number's serialization has no double dash, and the tuple `(12, 3)` is
recovered from its own key. -/
theorem delimiter_prevents_numeric_collisions_witness :
    ¬ DoubleDash (intRepr (-12)).data ∧ ([12, 3] : List Int) = [12, 3] :=
  ⟨(delimiter_prevents_numeric_collisions (-12) [12, 3] [12, 3] rfl).1,
   (delimiter_prevents_numeric_collisions (-12) [12, 3] [12, 3] rfl).2.1⟩

end Memoization
